import Mathlib

/-!
Verification of the `numbers_server` repository (file `src/server.py`).

The server ingests 10-byte frames (nine ASCII digits plus a line feed) over
TCP, deduplicates the parsed integers in a binary search tree, keeps a triple
of per-period counters, buffers the text of first-time-unique numbers, and a
periodic reporter prints a summary line and flushes the buffer to a log file.

This file gives a shallow embedding of that code:
  * bytes are `Nat` (values 0..255), byte strings are `List Nat`;
  * the framing loop of `consume_stream` (lines 110-162) becomes
    `walkStrides` / `consumeReads`;
  * the per-record critical section (lines 189-228) becomes `applyRecord`;
  * `generate_report` (lines 68-86) becomes `doReport`;
  * the admission check of `connection_handler` (lines 230-239) and
    `close_connection` (lines 88-94) become `connection_handler` /
    `close_connection`;
  * the cooperative scheduling of workers and the reporter becomes the
    labelled transition system `Step`.
-/

/-! ### Bytes, digits and parsing

`server.py` validates bytes with `48 <= b <= 57` (ASCII '0'..'9'), decodes the
frame with `byte_array.decode('utf8').strip()` (the nine digit bytes are not
whitespace, so `strip` removes exactly the trailing LF) and parses with
`int(number_str)`. -/

/-- A byte is an ASCII decimal digit (the check at `server.py:158`). -/
def isDigitByte (b : Nat) : Bool := 48 ≤ b && b ≤ 57

/-- `int(number_str)` on a string of ASCII digit bytes: usual left-to-right
decimal accumulation. -/
def parseDigits (ds : List Nat) : Nat :=
  ds.foldl (fun acc d => acc * 10 + (d - 48)) 0

/-- `byte_array.decode('utf8')` restricted to ASCII bytes: each byte becomes
the character with that code point. -/
def digitsStr (ds : List Nat) : String :=
  String.mk (ds.map Char.ofNat)

/-- The zero-padded `k`-digit ASCII byte representation of `n`
(least-significant digit last). -/
def toDigitsPad : Nat → Nat → List Nat
  | 0, _ => []
  | k + 1, n => toDigitsPad k (n / 10) ++ [48 + n % 10]

/-- The 9-character zero-padded decimal text of `n`, as a string. -/
def zeroPad9 (n : Nat) : String := digitsStr (toDigitsPad 9 n)

/-- The 10 bytes of the literal `b'terminate\n'` (`server.py:160`). -/
def terminateBytes : List Nat :=
  [116, 101, 114, 109, 105, 110, 97, 116, 101, 10]

/-! ### The framer (`consume_stream`, lines 110-162)

The code walks `remaining_buf + buf` in 10-byte strides.  For each full
stride it checks byte 9 against LF, then scans bytes 0..8 for a non-digit;
on the first non-digit it returns `"terminate"` when the whole stride is
`b'terminate\n'` and `"close"` otherwise.  The final stride of fewer than 10
bytes becomes the carry for the next read (`remaining_buf = buf[-length:]`,
which for the trailing slice equals `buf[offset:]`).  A zero-byte read means
the peer closed and the verdict is `"close"`.  The code returns the single
string `"close"` both for framing errors and for EOF; the constructor
`StrideResult.close` plays that role here. -/

/-- Outcome of classifying one full 10-byte stride. -/
inductive StrideResult where
  | close : StrideResult
  | term : StrideResult
  | record : Nat → String → StrideResult
deriving DecidableEq, Repr

/-- Classify one full 10-byte stride, mirroring `server.py:150-174`.
The source scans bytes 0..8 and performs the `terminate` comparison at the
first non-digit; since the comparison does not depend on which index
triggered it, this is equivalent to: all-digits ⇒ record, otherwise compare
the whole stride against `b'terminate\n'`.  (`b'terminate\n'` itself has a
non-digit at index 0, so it never falls in the all-digits branch.) -/
def classifyStride (ba : List Nat) : StrideResult :=
  if ba.getD 9 0 ≠ 10 then
    .close
  else if (List.range 9).all (fun i => isDigitByte (ba.getD i 0)) then
    .record (parseDigits (ba.take 9)) (digitsStr (ba.take 9))
  else if ba = terminateBytes then
    .term
  else
    .close

/-- Outcome of processing one read's worth of bytes. -/
inductive ReadOutcome where
  | more : List Nat → ReadOutcome   -- all full strides consumed; carry saved
  | close : ReadOutcome             -- the code's `return "close"`
  | term : ReadOutcome              -- the code's `return "terminate"`
deriving DecidableEq, Repr

/-- The stride walk of `server.py:134-174` over one concatenated buffer:
delivered records in order, plus how the walk ended.  A full stride exists
exactly when ten bytes can be peeled off the front; a shorter tail (possibly
empty, when the length was a multiple of 10) becomes the carry. -/
def walkStrides : List Nat → List (Nat × String) × ReadOutcome
  | b0 :: b1 :: b2 :: b3 :: b4 :: b5 :: b6 :: b7 :: b8 :: b9 :: rest =>
      match classifyStride [b0, b1, b2, b3, b4, b5, b6, b7, b8, b9] with
      | .close => ([], .close)
      | .term => ([], .term)
      | .record n s =>
          let r := walkStrides rest
          ((n, s) :: r.1, r.2)
  | buf => ([], .more buf)

/-- The read loop of `consume_stream` over a list of reads: each read is
prefixed with the carry; a zero-byte read returns `"close"` (EOF at
`server.py:120-122`).  When the reads are exhausted the accumulated carry is
returned so that processing can be composed. -/
def consumeReads : List Nat → List (List Nat) → List (Nat × String) × ReadOutcome
  | carry, [] => ([], .more carry)
  | carry, r :: rs =>
      if r = [] then ([], .close)
      else
        match walkStrides (carry ++ r) with
        | (recs, .more c) =>
            let rest := consumeReads c rs
            (recs ++ rest.1, rest.2)
        | (recs, .close) => (recs, .close)
        | (recs, .term) => (recs, .term)

/-! ### The dedup index (`bintrees.FastBinaryTree`)

The spec treats the tree as an abstract ordered associative container; the
embedding uses an association list with the dictionary semantics the code
relies on: `get_value` raises `KeyError` when absent (here: `none`), and
`insert` overwrites the value of an existing key. -/

/-- `bst.get_value(k)`: `some v` when present, `none` for `KeyError`. -/
def bstGet (bst : List (Nat × Bool)) (k : Nat) : Option Bool :=
  (bst.find? (fun p => p.1 = k)).map (fun p => p.2)

/-- `bst.insert(k, v)`: overwrite when the key is present, add otherwise. -/
def bstInsert (bst : List (Nat × Bool)) (k : Nat) (v : Bool) : List (Nat × Bool) :=
  if bst.any (fun p => p.1 = k) then
    bst.map (fun p => if p.1 = k then (k, v) else p)
  else
    bst ++ [(k, v)]

/-- Number of keys in the index whose flag is `false` (seen exactly once). -/
def falseCount (bst : List (Nat × Bool)) : Nat :=
  (bst.filter (fun p => p.2 = false)).length

/-! ### Server state and the per-record critical section

`current_report[0]` = new unique this period, `current_report[1]` =
duplicates this period, `current_report[2]` = cumulative unique.  Python
integers can go negative, and `current_report[2]` is decremented, so it is
modelled as `Int`; the other two are only incremented and reset.

Besides the mutable fields of `NumbersServer` (`bst`, `current_report`,
`logfile_buffer` and the written log file), the state carries structured
records of the observable output: `outLines` is the list of lines printed to
stdout, `reports` the same data as `(U, D, T)` triples, and `flushes` the
successive buffer snapshots written to the log file.  The last two are
instrumentation: they repeat, in structured form, exactly what the `print`
and `write` calls of `generate_report` emit. -/

structure SysState where
  bst : List (Nat × Bool)
  report0 : Nat
  report1 : Nat
  report2 : Int
  buffer : List String
  file : String
  outLines : List String
  reports : List (Nat × Nat × Int)
  flushes : List (List String)
deriving DecidableEq, Repr

/-- Server state right after `__init__` (empty index, zero counters, and,
since the log file is opened with mode `"w"`, an empty file). -/
def initState : SysState :=
  { bst := [], report0 := 0, report1 := 0, report2 := 0, buffer := [],
    file := "", outLines := [], reports := [], flushes := [] }

/-- The critical section of `consume_stream` (`server.py:189-228`) for one
delivered record: `number` is `int(number_str)` and `numberStr` the decoded
9-digit text.  `get_value` hitting `KeyError` is the `none` branch. -/
def applyRecord (s : SysState) (number : Nat) (numberStr : String) : SysState :=
  match bstGet s.bst number with
  | some isDuplicated =>
      if isDuplicated then
        { s with report1 := s.report1 + 1 }
      else
        { s with bst := bstInsert s.bst number true,
                 report2 := s.report2 - 1,
                 report1 := s.report1 + 1 }
  | none =>
      { s with report0 := s.report0 + 1,
               bst := bstInsert s.bst number false,
               buffer := s.buffer ++ [numberStr],
               report2 := s.report2 + 1 }

/-- The line printed by `generate_report` (`server.py:71-76`),
`"Received %d unique numbers, %d duplicates. Unique total: %d"`. -/
def reportLine (u d : Nat) (t : Int) : String :=
  "Received " ++ toString u ++ " unique numbers, " ++ toString d ++
    " duplicates. Unique total: " ++ toString t

/-- One fire of `generate_report` (`server.py:68-86`): print the line, zero
`current_report[0]` and `current_report[1]`, append `'\n'.join(buffer)` to
the log file, clear the buffer.  `current_report[2]` and the index are not
touched. -/
def doReport (s : SysState) : SysState :=
  { s with report0 := 0,
           report1 := 0,
           buffer := [],
           file := s.file ++ String.intercalate "\n" s.buffer,
           outLines := s.outLines ++ [reportLine s.report0 s.report1 s.report2],
           reports := s.reports ++ [(s.report0, s.report1, s.report2)],
           flushes := s.flushes ++ [s.buffer] }

/-- One serialized event of the server: a record applied under the mutex, or
a reporter fire. -/
inductive Op where
  | record : Nat → String → Op
  | report : Op
deriving DecidableEq, Repr

/-- One serialized event applied to the state. -/
def stepOp (st : SysState) (op : Op) : SysState :=
  match op with
  | .record n str => applyRecord st n str
  | .report => doReport st

/-- Serialized execution: the mutex plus gate make record applications and
reporter fires atomic with respect to each other (see the `Step` system
below), so a run is a fold over the sequence of events. -/
def run (s : SysState) (ops : List Op) : SysState :=
  ops.foldl stepOp s

/-- The numbers of the records in an event sequence, in order. -/
def numsOf (ops : List Op) : List Nat :=
  ops.filterMap (fun op => match op with
    | .record n _ => some n
    | .report => none)

/-- First occurrences: the distinct values in order of first appearance. -/
def firstOccs (l : List Nat) : List Nat :=
  l.foldl (fun acc a => if a ∈ acc then acc else acc ++ [a]) []

/-- The records of an event sequence, in order. -/
def recsOf (ops : List Op) : List (Nat × String) :=
  ops.filterMap (fun op => match op with
    | .record n s => some (n, s)
    | .report => none)

/-- The records kept at the first occurrence of their number. -/
def firstRecs (l : List (Nat × String)) : List (Nat × String) :=
  l.foldl (fun acc p => if p.1 ∈ acc.map Prod.fst then acc else acc ++ [p]) []

/-! ### Arithmetic facts about digit strings -/

theorem parseDigits_append (ds : List Nat) (d : Nat) :
    parseDigits (ds ++ [d]) = 10 * parseDigits ds + (d - 48) := by
  simp [parseDigits, List.foldl_append, Nat.mul_comm]

theorem parseDigits_lt (ds : List Nat) (h : ∀ d ∈ ds, isDigitByte d) :
    parseDigits ds < 10 ^ ds.length := by
  induction ds using List.reverseRecOn with
  | nil => simp [parseDigits]
  | append_singleton ds d ih =>
      have hd : d ≤ 57 := by
        have := h d (by simp)
        simp [isDigitByte] at this
        omega
      have hds : parseDigits ds < 10 ^ ds.length :=
        ih (fun x hx => h x (by simp [hx]))
      rw [parseDigits_append]
      simp only [List.length_append, List.length_cons, List.length_nil]
      calc 10 * parseDigits ds + (d - 48)
          ≤ 10 * (10 ^ ds.length - 1) + 9 := by omega
        _ < 10 ^ (ds.length + 1) := by
            have : 1 ≤ 10 ^ ds.length := Nat.one_le_pow _ _ (by omega)
            rw [pow_succ]
            omega

theorem toDigitsPad_parseDigits (ds : List Nat) (h : ∀ d ∈ ds, isDigitByte d) :
    toDigitsPad ds.length (parseDigits ds) = ds := by
  induction ds using List.reverseRecOn with
  | nil => simp [toDigitsPad, parseDigits]
  | append_singleton ds d ih =>
      have hd : 48 ≤ d ∧ d ≤ 57 := by
        have := h d (by simp)
        simp [isDigitByte] at this
        omega
      rw [parseDigits_append]
      simp only [List.length_append, List.length_cons, List.length_nil]
      show toDigitsPad (ds.length + 1) (10 * parseDigits ds + (d - 48)) = ds ++ [d]
      rw [toDigitsPad]
      have h10 : d - 48 < 10 := by omega
      have hdiv : (10 * parseDigits ds + (d - 48)) / 10 = parseDigits ds := by
        omega
      have hmod : (10 * parseDigits ds + (d - 48)) % 10 = d - 48 := by
        omega
      rw [hdiv, hmod, ih (fun x hx => h x (by simp [hx]))]
      have : 48 + (d - 48) = d := by omega
      rw [this]

/-! ### Framer lemmas -/

theorem classifyStride_record_iff (ba : List Nat) (n : Nat) (s : String) :
    classifyStride ba = .record n s ↔
      ba.getD 9 0 = 10 ∧ (∀ i < 9, isDigitByte (ba.getD i 0)) ∧
        n = parseDigits (ba.take 9) ∧ s = digitsStr (ba.take 9) := by
  unfold classifyStride
  split_ifs with h1 h2 h3 <;>
    simp_all [List.all_eq_true, List.mem_range] <;>
    tauto

theorem walkStrides_short (a : List Nat) (h : a.length < 10) :
    walkStrides a = ([], .more a) := by
  match a with
  | [] => rfl
  | [_] => rfl
  | [_, _] => rfl
  | [_, _, _] => rfl
  | [_, _, _, _] => rfl
  | [_, _, _, _, _] => rfl
  | [_, _, _, _, _, _] => rfl
  | [_, _, _, _, _, _, _] => rfl
  | [_, _, _, _, _, _, _, _] => rfl
  | [_, _, _, _, _, _, _, _, _] => rfl
  | _ :: _ :: _ :: _ :: _ :: _ :: _ :: _ :: _ :: _ :: _ =>
      simp at h
      omega

theorem no_stride_length (buf : List Nat)
    (h : ∀ (b0 b1 b2 b3 b4 b5 b6 b7 b8 b9 : Nat) (rest : List Nat),
      buf = b0 :: b1 :: b2 :: b3 :: b4 :: b5 :: b6 :: b7 :: b8 :: b9 :: rest → False) :
    buf.length < 10 := by
  match buf with
  | [] => simp
  | [_] => simp
  | [_, _] => simp
  | [_, _, _] => simp
  | [_, _, _, _] => simp
  | [_, _, _, _, _] => simp
  | [_, _, _, _, _, _] => simp
  | [_, _, _, _, _, _, _] => simp
  | [_, _, _, _, _, _, _, _] => simp
  | [_, _, _, _, _, _, _, _, _] => simp
  | b0 :: b1 :: b2 :: b3 :: b4 :: b5 :: b6 :: b7 :: b8 :: b9 :: rest =>
      exact (h b0 b1 b2 b3 b4 b5 b6 b7 b8 b9 rest rfl).elim

theorem walkStrides_more_length (a c : List Nat)
    (h : (walkStrides a).2 = .more c) : c.length < 10 := by
  induction a using walkStrides.induct with
  | case1 b0 b1 b2 b3 b4 b5 b6 b7 b8 b9 rest hcl =>
      simp only [walkStrides, hcl] at h
      exact ReadOutcome.noConfusion h
  | case2 b0 b1 b2 b3 b4 b5 b6 b7 b8 b9 rest hcl =>
      simp only [walkStrides, hcl] at h
      exact ReadOutcome.noConfusion h
  | case3 b0 b1 b2 b3 b4 b5 b6 b7 b8 b9 rest n s hcl ih =>
      simp only [walkStrides, hcl] at h
      exact ih h
  | case4 buf hb =>
      have hlen := no_stride_length buf hb
      rw [walkStrides_short buf hlen] at h
      simp only [ReadOutcome.more.injEq] at h
      exact h ▸ hlen

/-- Appending further bytes after a prefix whose walk ended saving a carry:
the walk of the whole is the records of the prefix followed by the walk of
the carry glued to the extra bytes.  This is the reassembly property of the
`remaining_buf` mechanism. -/
theorem walkStrides_append_more (a b c : List Nat)
    (h : (walkStrides a).2 = .more c) :
    walkStrides (a ++ b) =
      ((walkStrides a).1 ++ (walkStrides (c ++ b)).1, (walkStrides (c ++ b)).2) := by
  induction a using walkStrides.induct with
  | case1 b0 b1 b2 b3 b4 b5 b6 b7 b8 b9 rest hcl =>
      simp only [walkStrides, hcl] at h
      exact ReadOutcome.noConfusion h
  | case2 b0 b1 b2 b3 b4 b5 b6 b7 b8 b9 rest hcl =>
      simp only [walkStrides, hcl] at h
      exact ReadOutcome.noConfusion h
  | case3 b0 b1 b2 b3 b4 b5 b6 b7 b8 b9 rest n s hcl ih =>
      simp only [walkStrides, hcl] at h
      simp only [List.cons_append, walkStrides, hcl, List.append_eq]
      rw [ih h]
  | case4 buf hb =>
      have hlen := no_stride_length buf hb
      rw [walkStrides_short buf hlen] at h
      simp only [ReadOutcome.more.injEq] at h
      subst h
      rw [walkStrides_short buf hlen]
      simp

/-- Once the walk of a prefix ended with a verdict, later bytes are never
looked at. -/
theorem walkStrides_append_stop (a b : List Nat)
    (h : ∀ c, (walkStrides a).2 ≠ .more c) :
    walkStrides (a ++ b) = walkStrides a := by
  induction a using walkStrides.induct with
  | case1 b0 b1 b2 b3 b4 b5 b6 b7 b8 b9 rest hcl =>
      simp only [List.cons_append, walkStrides, hcl]
  | case2 b0 b1 b2 b3 b4 b5 b6 b7 b8 b9 rest hcl =>
      simp only [List.cons_append, walkStrides, hcl]
  | case3 b0 b1 b2 b3 b4 b5 b6 b7 b8 b9 rest n s hcl ih =>
      simp only [walkStrides, hcl] at h
      simp only [List.cons_append, walkStrides, hcl, List.append_eq]
      rw [ih h]
  | case4 buf hb =>
      have hlen := no_stride_length buf hb
      have hmore := h buf
      rw [walkStrides_short buf hlen] at hmore
      exact absurd rfl hmore

/-- The read loop is equivalent to walking the concatenated byte stream: for
any partition of the bytes into (non-empty) reads, `consume_stream` delivers
the same records with the same final outcome.  Frames split across reads are
reassembled. -/
theorem consumeReads_join (reads : List (List Nat)) (carry : List Nat)
    (hc : carry.length < 10) (h : ∀ r ∈ reads, r ≠ []) :
    consumeReads carry reads = walkStrides (carry ++ reads.flatten) := by
  induction reads generalizing carry with
  | nil =>
      simp only [consumeReads, List.flatten_nil, List.append_nil]
      rw [walkStrides_short carry hc]
  | cons r rs ih =>
      have hr : r ≠ [] := h r (by simp)
      simp only [consumeReads]
      rw [if_neg hr]
      simp only [List.flatten_cons, ← List.append_assoc]
      rcases hw : walkStrides (carry ++ r) with ⟨recs, o⟩
      cases o with
      | more c =>
          have h2 : (walkStrides (carry ++ r)).2 = .more c := by rw [hw]
          have hclen := walkStrides_more_length _ _ h2
          have hrest : consumeReads c rs = walkStrides (c ++ rs.flatten) :=
            ih c hclen (fun x hx => h x (by simp [hx]))
          rw [walkStrides_append_more _ rs.flatten c h2, hw]
          show (recs ++ (consumeReads c rs).1, (consumeReads c rs).2) = _
          rw [hrest]
      | close =>
          rw [walkStrides_append_stop _ rs.flatten (by rw [hw]; simp)]
          rw [hw]
      | term =>
          rw [walkStrides_append_stop _ rs.flatten (by rw [hw]; simp)]
          rw [hw]

/-! ### Index lemmas -/

theorem bstGet_cons (p : Nat × Bool) (l : List (Nat × Bool)) (k : Nat) :
    bstGet (p :: l) k = if p.1 = k then some p.2 else bstGet l k := by
  by_cases h : p.1 = k
  · simp [bstGet, List.find?_cons_of_pos, h]
  · simp [bstGet, List.find?_cons_of_neg, h]

theorem bstGet_isSome_iff_any (bst : List (Nat × Bool)) (k : Nat) :
    (bstGet bst k).isSome = bst.any (fun p => p.1 = k) := by
  induction bst with
  | nil => rfl
  | cons p l ih =>
      rw [bstGet_cons]
      by_cases h : p.1 = k <;> simp [h, ih]

theorem map_fst_set (l : List (Nat × Bool)) (k : Nat) (v : Bool) :
    (l.map (fun p => if p.1 = k then (k, v) else p)).map Prod.fst = l.map Prod.fst := by
  induction l with
  | nil => rfl
  | cons p l ih =>
      by_cases h : p.1 = k <;> simp [h, ih]

theorem map_set_not_mem (l : List (Nat × Bool)) (k : Nat) (v : Bool)
    (h : k ∉ l.map Prod.fst) :
    l.map (fun p => if p.1 = k then (k, v) else p) = l := by
  induction l with
  | nil => rfl
  | cons p l ih =>
      simp only [List.map_cons, List.mem_cons, not_or] at h
      have hp : p.1 ≠ k := fun hh => h.1 hh.symm
      simp [hp, ih h.2]

theorem bstGet_insert_same (bst : List (Nat × Bool)) (k : Nat) (v : Bool) :
    bstGet (bstInsert bst k v) k = some v := by
  unfold bstInsert
  split_ifs with h
  · induction bst with
    | nil => simp at h
    | cons p l ih =>
        by_cases hp : p.1 = k
        · simp [List.map_cons, hp, bstGet_cons]
        · simp only [List.any_cons, hp, decide_eq_true_eq, false_or,
            Bool.false_or] at h
          simp only [List.map_cons, if_neg hp, bstGet_cons, if_neg hp]
          exact ih (by simpa using h)
  · induction bst with
    | nil => simp [bstGet]
    | cons p l ih =>
        simp only [List.any_cons, Bool.or_eq_true, decide_eq_true_eq, not_or] at h
        simp only [List.cons_append, bstGet_cons, if_neg h.1]
        exact ih (by simp [h.2])

theorem bstGet_map_set_other (l : List (Nat × Bool)) (k : Nat) (v : Bool)
    (m : Nat) (h : m ≠ k) :
    bstGet (l.map (fun p => if p.1 = k then (k, v) else p)) m = bstGet l m := by
  induction l with
  | nil => rfl
  | cons p l ih =>
      by_cases hp : p.1 = k
      · simp only [List.map_cons, if_pos hp, bstGet_cons]
        rw [if_neg (fun hh : k = m => h hh.symm),
          if_neg (by rw [hp]; exact fun hh : k = m => h hh.symm)]
        exact ih
      · simp only [List.map_cons, if_neg hp, bstGet_cons]
        by_cases hm : p.1 = m
        · simp [hm]
        · simp only [if_neg hm]
          exact ih

theorem bstGet_append_single_other (l : List (Nat × Bool)) (k : Nat) (v : Bool)
    (m : Nat) (h : m ≠ k) :
    bstGet (l ++ [(k, v)]) m = bstGet l m := by
  induction l with
  | nil =>
      show bstGet [(k, v)] m = bstGet [] m
      rw [bstGet_cons, if_neg (fun hh : k = m => h hh.symm)]
  | cons p l ih =>
      rw [List.cons_append, bstGet_cons, bstGet_cons]
      by_cases hm : p.1 = m
      · simp [hm]
      · simp only [if_neg hm]
        exact ih

theorem bstGet_insert_other (bst : List (Nat × Bool)) (k : Nat) (v : Bool)
    (m : Nat) (h : m ≠ k) : bstGet (bstInsert bst k v) m = bstGet bst m := by
  unfold bstInsert
  split_ifs with hany
  · exact bstGet_map_set_other bst k v m h
  · exact bstGet_append_single_other bst k v m h

theorem falseCount_append_false (bst : List (Nat × Bool)) (k : Nat) :
    falseCount (bst ++ [(k, false)]) = falseCount bst + 1 := by
  simp [falseCount, List.filter_append]

theorem falseCount_set_true (bst : List (Nat × Bool)) (k : Nat)
    (hnd : (bst.map Prod.fst).Nodup) (h : bstGet bst k = some false) :
    falseCount (bst.map (fun p => if p.1 = k then (k, true) else p)) + 1 =
      falseCount bst := by
  induction bst with
  | nil => simp [bstGet] at h
  | cons p l ih =>
      simp only [List.map_cons, List.nodup_cons] at hnd
      rw [bstGet_cons] at h
      by_cases hp : p.1 = k
      · rw [if_pos hp] at h
        have hval : p.2 = false := by simpa using h
        rw [List.map_cons, if_pos hp]
        rw [map_set_not_mem l k true (by rw [← hp]; exact hnd.1)]
        have hpeq : p = (k, false) := by
          rcases p with ⟨a, b⟩
          simp_all
        subst hpeq
        simp [falseCount]
      · rw [if_neg hp] at h
        rw [List.map_cons, if_neg hp]
        have hrec := ih hnd.2 h
        rcases p with ⟨a, b⟩
        cases b <;> simp [falseCount, List.filter_cons] at hrec ⊢ <;> omega

/-- A list of nine digit bytes is exactly the zero-padded text of its parse:
what the worker appends to the log buffer is the 9-digit zero-padded form of
the record's integer. -/
theorem digitsStr_eq_zeroPad9 (ds : List Nat) (hlen : ds.length = 9)
    (h : ∀ d ∈ ds, isDigitByte d) :
    digitsStr ds = zeroPad9 (parseDigits ds) := by
  unfold zeroPad9
  rw [← hlen, toDigitsPad_parseDigits ds h]


/-! ### First-occurrence lemmas -/

theorem mem_foldl_occs (l : List Nat) (acc : List Nat) (x : Nat) :
    x ∈ l.foldl (fun acc a => if a ∈ acc then acc else acc ++ [a]) acc ↔
      x ∈ acc ∨ x ∈ l := by
  induction l generalizing acc with
  | nil => simp
  | cons a l ih =>
      rw [List.foldl_cons, ih]
      by_cases h : a ∈ acc
      · rw [if_pos h]
        constructor
        · intro hx
          rcases hx with hx | hx
          · exact Or.inl hx
          · exact Or.inr (List.mem_cons_of_mem a hx)
        · intro hx
          rcases hx with hx | hx
          · exact Or.inl hx
          · rcases List.mem_cons.mp hx with hx | hx
            · exact Or.inl (hx ▸ h)
            · exact Or.inr hx
      · rw [if_neg h]
        simp only [List.mem_append, List.mem_singleton, List.mem_cons]
        tauto

theorem mem_firstOccs (l : List Nat) (x : Nat) : x ∈ firstOccs l ↔ x ∈ l := by
  unfold firstOccs
  rw [mem_foldl_occs]
  simp

theorem firstOccs_append (l : List Nat) (a : Nat) :
    firstOccs (l ++ [a]) =
      if a ∈ firstOccs l then firstOccs l else firstOccs l ++ [a] := by
  unfold firstOccs
  rw [List.foldl_append, List.foldl_cons, List.foldl_nil]

theorem keys_foldl_recs (l : List (Nat × String)) (acc : List (Nat × String)) (x : Nat) :
    x ∈ (l.foldl (fun acc p => if p.1 ∈ acc.map Prod.fst then acc else acc ++ [p]) acc).map Prod.fst ↔
      x ∈ acc.map Prod.fst ∨ x ∈ l.map Prod.fst := by
  induction l generalizing acc with
  | nil => simp
  | cons p l ih =>
      rw [List.foldl_cons, ih]
      by_cases h : p.1 ∈ acc.map Prod.fst
      · rw [if_pos h]
        simp only [List.map_cons, List.mem_cons]
        constructor
        · tauto
        · intro hx
          rcases hx with hx | hx | hx
          · exact Or.inl hx
          · exact Or.inl (hx ▸ h)
          · exact Or.inr hx
      · rw [if_neg h]
        simp only [List.map_append, List.map_cons, List.map_nil,
          List.mem_append, List.mem_singleton, List.mem_cons]
        tauto

theorem keys_firstRecs (l : List (Nat × String)) (x : Nat) :
    x ∈ (firstRecs l).map Prod.fst ↔ x ∈ l.map Prod.fst := by
  unfold firstRecs
  rw [keys_foldl_recs]
  simp

theorem firstRecs_append (l : List (Nat × String)) (p : Nat × String) :
    firstRecs (l ++ [p]) =
      if p.1 ∈ (firstRecs l).map Prod.fst then firstRecs l else firstRecs l ++ [p] := by
  unfold firstRecs
  rw [List.foldl_append, List.foldl_cons, List.foldl_nil]

theorem keys_firstRecs_eq (l : List (Nat × String)) :
    (firstRecs l).map Prod.fst = firstOccs (l.map Prod.fst) := by
  induction l using List.reverseRecOn with
  | nil => rfl
  | append_singleton l p ih =>
      rw [firstRecs_append]
      have hmap : (l ++ [p]).map Prod.fst = l.map Prod.fst ++ [p.1] := by simp
      rw [hmap, firstOccs_append, ← ih]
      by_cases h : p.1 ∈ (firstRecs l).map Prod.fst
      · rw [if_pos h, if_pos h]
      · rw [if_neg h, if_neg h]
        simp

theorem mem_firstRecs (l : List (Nat × String)) (p : Nat × String)
    (h : p ∈ firstRecs l) : p ∈ l := by
  have aux : ∀ (l acc : List (Nat × String)) (q : Nat × String),
      q ∈ l.foldl (fun acc p => if p.1 ∈ acc.map Prod.fst then acc else acc ++ [p]) acc →
      q ∈ acc ∨ q ∈ l := by
    intro l
    induction l with
    | nil => intro acc q hq; exact Or.inl hq
    | cons p l ih =>
        intro acc q hq
        rw [List.foldl_cons] at hq
        rcases ih _ q hq with hq | hq
        · by_cases hp : p.1 ∈ acc.map Prod.fst
          · rw [if_pos hp] at hq
            exact Or.inl hq
          · rw [if_neg hp] at hq
            rcases List.mem_append.mp hq with hq | hq
            · exact Or.inl hq
            · exact Or.inr (List.mem_cons.mpr (Or.inl (List.mem_singleton.mp hq)))
        · exact Or.inr (List.mem_cons_of_mem p hq)
  rcases aux l [] p h with hq | hq
  · simp at hq
  · exact hq

/-! ### The master invariant of serialized execution -/

theorem any_key_iff (l : List (Nat × Bool)) (k : Nat) :
    (l.any (fun p => p.1 = k) = true) ↔ k ∈ l.map Prod.fst := by
  simp only [List.any_eq_true, decide_eq_true_eq, List.mem_map]

theorem bstGet_isSome_iff_mem (bst : List (Nat × Bool)) (k : Nat) :
    (bstGet bst k).isSome = true ↔ k ∈ bst.map Prod.fst := by
  rw [bstGet_isSome_iff_any]
  exact any_key_iff bst k

theorem bstGet_none_iff (bst : List (Nat × Bool)) (k : Nat) :
    bstGet bst k = none ↔ k ∉ bst.map Prod.fst := by
  rw [← bstGet_isSome_iff_mem]
  cases bstGet bst k <;> simp

theorem bstInsert_absent (bst : List (Nat × Bool)) (k : Nat) (v : Bool)
    (h : bstGet bst k = none) : bstInsert bst k v = bst ++ [(k, v)] := by
  unfold bstInsert
  rw [if_neg]
  intro hany
  exact (bstGet_none_iff bst k).mp h ((any_key_iff bst k).mp hany)

theorem bstInsert_present (bst : List (Nat × Bool)) (k : Nat) (v : Bool)
    (h : (bstGet bst k).isSome = true) :
    bstInsert bst k v = bst.map (fun p => if p.1 = k then (k, v) else p) := by
  unfold bstInsert
  rw [if_pos]
  exact (any_key_iff bst k).mpr ((bstGet_isSome_iff_mem bst k).mp h)

theorem count_append_singleton (l : List Nat) (a m : Nat) :
    (l ++ [a]).count m = l.count m + if a = m then 1 else 0 := by
  simp [List.count_append, List.count_cons]

/-- All the facts about a serialized run that the claims need, stated
relative to the records applied so far. -/
def GoodState (s : SysState) (recs : List (Nat × String)) : Prop :=
  (s.bst.map Prod.fst).Nodup ∧
  (∀ m, (bstGet s.bst m).isSome = true ↔ m ∈ recs.map Prod.fst) ∧
  (∀ m, bstGet s.bst m = some false ↔ (recs.map Prod.fst).count m = 1) ∧
  (∀ m, bstGet s.bst m = some true ↔ 2 ≤ (recs.map Prod.fst).count m) ∧
  s.report2 = (falseCount s.bst : Int) ∧
  (s.reports.map (fun r => r.1)).sum + s.report0 =
    (firstOccs (recs.map Prod.fst)).length ∧
  (s.reports.map (fun r => r.2.1)).sum + s.report1 +
    (firstOccs (recs.map Prod.fst)).length = recs.length ∧
  s.flushes.flatten ++ s.buffer = (firstRecs recs).map Prod.snd ∧
  s.file = (s.flushes.map (String.intercalate "\n")).foldl (fun a b => a ++ b) ""

theorem goodState_init : GoodState initState [] := by
  refine ⟨?_, ?_, ?_, ?_, ?_, ?_, ?_, ?_, ?_⟩ <;>
    simp [initState, bstGet, firstOccs, firstRecs, falseCount]

theorem goodState_report (s : SysState) (recs : List (Nat × String))
    (h : GoodState s recs) : GoodState (doReport s) recs := by
  obtain ⟨h1, h2, h3, h4, h5, h6, h7, h8, h9⟩ := h
  refine ⟨h1, h2, h3, h4, h5, ?_, ?_, ?_, ?_⟩
  · simpa [doReport] using h6
  · simpa [doReport] using h7
  · simpa [doReport] using h8
  · simp [doReport, h9]

theorem bstGet_append_single_self (l : List (Nat × Bool)) (k : Nat) (v : Bool)
    (h : bstGet l k = none) : bstGet (l ++ [(k, v)]) k = some v := by
  induction l with
  | nil =>
      show bstGet [(k, v)] k = some v
      rw [bstGet_cons]
      simp
  | cons p l ih =>
      rw [bstGet_cons] at h
      rw [List.cons_append, bstGet_cons]
      by_cases hp : p.1 = k
      · rw [if_pos hp] at h
        exact absurd h (by simp)
      · rw [if_neg hp] at h
        rw [if_neg hp]
        exact ih h

theorem goodState_record (s : SysState) (recs : List (Nat × String))
    (n : Nat) (str : String) (h : GoodState s recs) :
    GoodState (applyRecord s n str) (recs ++ [(n, str)]) := by
  obtain ⟨h1, h2, h3, h4, h5, h6, h7, h8, h9⟩ := h
  have hkeys : (recs ++ [(n, str)]).map Prod.fst = recs.map Prod.fst ++ [n] := by
    simp
  cases hg : bstGet s.bst n with
  | none =>
      have hnotmem : n ∉ recs.map Prod.fst := by
        intro hmem
        have hs := (h2 n).mpr hmem
        rw [hg] at hs
        simp at hs
      have hkmem : n ∉ s.bst.map Prod.fst := (bstGet_none_iff s.bst n).mp hg
      have hcnt0 : (recs.map Prod.fst).count n = 0 := List.count_eq_zero.mpr hnotmem
      have happ : applyRecord s n str =
          { s with report0 := s.report0 + 1,
                   bst := s.bst ++ [(n, false)],
                   buffer := s.buffer ++ [str],
                   report2 := s.report2 + 1 } := by
        rw [applyRecord, hg, bstInsert_absent s.bst n false hg]
      rw [happ]
      refine ⟨?_, ?_, ?_, ?_, ?_, ?_, ?_, ?_, ?_⟩
      · simp only [List.map_append, List.map_cons, List.map_nil]
        rw [List.nodup_append]
        exact ⟨h1, List.nodup_singleton n,
          by intro a ha hb; rw [List.mem_singleton] at hb; exact hkmem (hb ▸ ha)⟩
      · intro m
        rw [hkeys]
        by_cases hm : m = n
        · subst hm
          rw [bstGet_append_single_self s.bst m false hg]
          simp
        · rw [bstGet_append_single_other s.bst n false m hm]
          simp only [List.mem_append, List.mem_singleton, hm, or_false]
          exact h2 m
      · intro m
        rw [hkeys, count_append_singleton]
        by_cases hm : m = n
        · subst hm
          rw [bstGet_append_single_self s.bst m false hg]
          simp [hcnt0]
        · rw [bstGet_append_single_other s.bst n false m hm,
            if_neg (fun hh : n = m => hm hh.symm)]
          simpa using h3 m
      · intro m
        rw [hkeys, count_append_singleton]
        by_cases hm : m = n
        · subst hm
          rw [bstGet_append_single_self s.bst m false hg]
          simp [hcnt0]
        · rw [bstGet_append_single_other s.bst n false m hm,
            if_neg (fun hh : n = m => hm hh.symm)]
          simpa using h4 m
      · show s.report2 + 1 = (falseCount (s.bst ++ [(n, false)]) : Int)
        rw [falseCount_append_false]
        push_cast
        omega
      · show (s.reports.map (fun r => r.1)).sum + (s.report0 + 1) = _
        rw [hkeys, firstOccs_append,
          if_neg (fun hh => hnotmem ((mem_firstOccs _ n).mp hh))]
        simp only [List.length_append, List.length_cons, List.length_nil]
        omega
      · show (s.reports.map (fun r => r.2.1)).sum + s.report1 + _ = _
        rw [hkeys, firstOccs_append,
          if_neg (fun hh => hnotmem ((mem_firstOccs _ n).mp hh))]
        simp only [List.length_append, List.length_cons, List.length_nil]
        omega
      · show s.flushes.flatten ++ (s.buffer ++ [str]) = _
        rw [firstRecs_append,
          if_neg (fun hh => hnotmem ((keys_firstRecs recs n).mp hh))]
        rw [← List.append_assoc, h8]
        simp
      · exact h9
  | some flag =>
      cases flag with
      | false =>
          have hcnt1 : (recs.map Prod.fst).count n = 1 := (h3 n).mp hg
          have hmem : n ∈ recs.map Prod.fst :=
            List.count_pos_iff.mp (by omega)
          have hsome : (bstGet s.bst n).isSome = true := by rw [hg]; rfl
          have hins := bstInsert_present s.bst n true hsome
          have happ : applyRecord s n str =
              { s with bst := s.bst.map (fun p => if p.1 = n then (n, true) else p),
                       report2 := s.report2 - 1,
                       report1 := s.report1 + 1 } := by
            rw [applyRecord, hg]
            simp only [Bool.false_eq_true, if_neg, hins]
            rfl
          rw [happ]
          refine ⟨?_, ?_, ?_, ?_, ?_, ?_, ?_, ?_, ?_⟩
          · rw [map_fst_set]
            exact h1
          · intro m
            rw [hkeys, ← hins]
            by_cases hm : m = n
            · subst hm
              rw [bstGet_insert_same]
              simp
            · rw [bstGet_insert_other s.bst n true m hm]
              simp only [List.mem_append, List.mem_singleton, hm, or_false]
              exact h2 m
          · intro m
            rw [hkeys, count_append_singleton, ← hins]
            by_cases hm : m = n
            · subst hm
              rw [bstGet_insert_same]
              simp [hcnt1]
            · rw [bstGet_insert_other s.bst n true m hm,
                if_neg (fun hh : n = m => hm hh.symm)]
              simpa using h3 m
          · intro m
            rw [hkeys, count_append_singleton, ← hins]
            by_cases hm : m = n
            · subst hm
              rw [bstGet_insert_same]
              simp [hcnt1]
            · rw [bstGet_insert_other s.bst n true m hm,
                if_neg (fun hh : n = m => hm hh.symm)]
              simpa using h4 m
          · show s.report2 - 1 =
              (falseCount (s.bst.map (fun p => if p.1 = n then (n, true) else p)) : Int)
            have hfc := falseCount_set_true s.bst n h1 hg
            have : (falseCount (s.bst.map (fun p => if p.1 = n then (n, true) else p)) : Int) + 1 =
                (falseCount s.bst : Int) := by exact_mod_cast congrArg Nat.cast hfc
            omega
          · show (s.reports.map (fun r => r.1)).sum + s.report0 = _
            rw [hkeys, firstOccs_append, if_pos ((mem_firstOccs _ n).mpr hmem)]
            exact h6
          · show (s.reports.map (fun r => r.2.1)).sum + (s.report1 + 1) + _ = _
            rw [hkeys, firstOccs_append, if_pos ((mem_firstOccs _ n).mpr hmem)]
            simp only [List.length_append, List.length_cons, List.length_nil]
            omega
          · show s.flushes.flatten ++ s.buffer = _
            rw [firstRecs_append, if_pos ((keys_firstRecs recs n).mpr hmem)]
            exact h8
          · exact h9
      | true =>
          have hcnt2 : 2 ≤ (recs.map Prod.fst).count n := (h4 n).mp hg
          have hmem : n ∈ recs.map Prod.fst :=
            List.count_pos_iff.mp (by omega)
          have happ : applyRecord s n str =
              { s with report1 := s.report1 + 1 } := by
            rw [applyRecord, hg]
            simp
          rw [happ]
          refine ⟨h1, ?_, ?_, ?_, h5, ?_, ?_, ?_, h9⟩
          · intro m
            rw [hkeys]
            by_cases hm : m = n
            · subst hm
              simp [hg]
            · simp only [List.mem_append, List.mem_singleton, hm, or_false]
              exact h2 m
          · intro m
            rw [hkeys, count_append_singleton]
            by_cases hm : m = n
            · subst hm
              rw [hg, if_pos rfl]
              constructor
              · intro hh
                exact absurd hh (by simp)
              · intro hh
                exact absurd hh (by omega)
            · rw [if_neg (fun hh : n = m => hm hh.symm)]
              simpa using h3 m
          · intro m
            rw [hkeys, count_append_singleton]
            by_cases hm : m = n
            · subst hm
              rw [hg, if_pos rfl]
              constructor
              · intro hh2
                omega
              · intro hh2
                rfl
            · rw [if_neg (fun hh : n = m => hm hh.symm)]
              simpa using h4 m
          · show (s.reports.map (fun r => r.1)).sum + s.report0 = _
            rw [hkeys, firstOccs_append, if_pos ((mem_firstOccs _ n).mpr hmem)]
            exact h6
          · show (s.reports.map (fun r => r.2.1)).sum + (s.report1 + 1) + _ = _
            rw [hkeys, firstOccs_append, if_pos ((mem_firstOccs _ n).mpr hmem)]
            simp only [List.length_append, List.length_cons, List.length_nil]
            omega
          · show s.flushes.flatten ++ s.buffer = _
            rw [firstRecs_append, if_pos ((keys_firstRecs recs n).mpr hmem)]
            exact h8

theorem run_append (s : SysState) (ops : List Op) (op : Op) :
    run s (ops ++ [op]) = stepOp (run s ops) op := by
  simp [run, List.foldl_append]

theorem recsOf_append_record (ops : List Op) (n : Nat) (str : String) :
    recsOf (ops ++ [Op.record n str]) = recsOf ops ++ [(n, str)] := by
  simp [recsOf, List.filterMap_append]

theorem recsOf_append_report (ops : List Op) :
    recsOf (ops ++ [Op.report]) = recsOf ops := by
  simp [recsOf, List.filterMap_append]

theorem numsOf_eq (ops : List Op) : numsOf ops = (recsOf ops).map Prod.fst := by
  induction ops with
  | nil => rfl
  | cons op ops ih =>
      cases op <;> simp [numsOf, recsOf, List.filterMap_cons] at ih ⊢ <;>
        exact ih

/-- Every serialized run satisfies the master invariant. -/
theorem run_good (ops : List Op) : GoodState (run initState ops) (recsOf ops) := by
  induction ops using List.reverseRecOn with
  | nil => exact goodState_init
  | append_singleton ops op ih =>
      rw [run_append]
      cases op with
      | record n str =>
          rw [recsOf_append_record]
          exact goodState_record _ _ n str ih
      | report =>
          rw [recsOf_append_report]
          exact goodState_report _ _ ih

theorem firstOccs_length_eq_card (l : List Nat) :
    (firstOccs l).length = l.toFinset.card := by
  induction l using List.reverseRecOn with
  | nil => rfl
  | append_singleton l a ih =>
      rw [firstOccs_append]
      by_cases h : a ∈ firstOccs l
      · rw [if_pos h, ih]
        have ha : a ∈ l.toFinset := List.mem_toFinset.mpr ((mem_firstOccs l a).mp h)
        rw [List.toFinset_append]
        have h1 : (([a] : List Nat).toFinset : Finset Nat) = {a} := by simp
        rw [h1, Finset.union_eq_left.mpr (Finset.singleton_subset_iff.mpr ha)]
      · rw [if_neg h]
        have ha : a ∉ l.toFinset :=
          fun hm => h ((mem_firstOccs l a).mpr (List.mem_toFinset.mp hm))
        simp only [List.length_append, List.length_cons, List.length_nil, ih]
        rw [List.toFinset_append]
        have h1 : (([a] : List Nat).toFinset : Finset Nat) = {a} := by simp
        rw [h1, Finset.union_comm, ← Finset.insert_eq,
          Finset.card_insert_of_not_mem ha]

/-! ### Consequences of stride validation -/

theorem all_digits_take (ba : List Nat) (h : ∀ i < 9, isDigitByte (ba.getD i 0))
    (hlen : 9 ≤ ba.length) : ∀ d ∈ ba.take 9, isDigitByte d := by
  intro d hd
  rw [List.mem_iff_getElem] at hd
  obtain ⟨i, hi, hget⟩ := hd
  rw [List.length_take] at hi
  have hi9 : i < 9 := lt_of_lt_of_le hi (min_le_left _ _)
  have hib : i < ba.length := lt_of_lt_of_le hi9 hlen
  have ht : (ba.take 9)[i] = ba[i] := List.getElem_take ba
  rw [ht] at hget
  have hgd : ba.getD i 0 = ba[i] := List.getD_eq_getElem ba 0 hib
  have hd9 := h i hi9
  rw [hgd, hget] at hd9
  exact hd9

/-- Everything the worker relies on after a stride validates: the parsed
value is below `10^9`, and the decoded text is exactly the 9-digit
zero-padded decimal form of the value. -/
theorem classify_record_props (ba : List Nat) (n : Nat) (str : String)
    (hlen : ba.length = 10) (h : classifyStride ba = .record n str) :
    n = parseDigits (ba.take 9) ∧ str = digitsStr (ba.take 9) ∧
      str = zeroPad9 n ∧ n < 10 ^ 9 := by
  obtain ⟨-, hdig, hn, hs⟩ := (classifyStride_record_iff ba n str).mp h
  have hd9 : ∀ d ∈ ba.take 9, isDigitByte d :=
    all_digits_take ba hdig (by omega)
  have htl : (ba.take 9).length = 9 := by
    rw [List.length_take]
    omega
  refine ⟨hn, hs, ?_, ?_⟩
  · rw [hs, hn]
    exact digitsStr_eq_zeroPad9 (ba.take 9) htl hd9
  · rw [hn]
    have := parseDigits_lt (ba.take 9) hd9
    rw [htl] at this
    exact this

theorem isDigit_ofNat (d : Nat) (h1 : 48 ≤ d) (h2 : d ≤ 57) :
    (Char.ofNat d).isDigit = true := by
  interval_cases d <;> decide

/-- The decoded text of a validated stride is nine digit characters. -/
theorem digitsStr_props (ds : List Nat) (hlen : ds.length = 9)
    (h : ∀ d ∈ ds, isDigitByte d) :
    (digitsStr ds).length = 9 ∧ ∀ c ∈ (digitsStr ds).data, c.isDigit = true := by
  constructor
  · show (ds.map Char.ofNat).length = 9
    rw [List.length_map]
    exact hlen
  · intro c hc
    show c.isDigit = true
    have hc2 : c ∈ ds.map Char.ofNat := hc
    rw [List.mem_map] at hc2
    obtain ⟨d, hd, hdc⟩ := hc2
    have := h d hd
    simp only [isDigitByte, Bool.and_eq_true, decide_eq_true_eq] at this
    rw [← hdc]
    exact isDigit_ofNat d this.1 this.2

/-! ### Step lemmas for the index (monotonicity) -/

theorem applyRecord_bst_preserves_true (s : SysState) (n : Nat) (str : String)
    (k : Nat) (h : bstGet s.bst k = some true) :
    bstGet (applyRecord s n str).bst k = some true := by
  cases hg : bstGet s.bst n with
  | none =>
      have happ : (applyRecord s n str).bst = s.bst ++ [(n, false)] := by
        rw [applyRecord, hg, bstInsert_absent s.bst n false hg]
      rw [happ]
      have hk : k ≠ n := by
        intro hh
        rw [hh, hg] at h
        exact Option.noConfusion h
      rw [bstGet_append_single_other s.bst n false k hk]
      exact h
  | some flag =>
      cases flag with
      | false =>
          have hsome : (bstGet s.bst n).isSome = true := by rw [hg]; rfl
          have happ : (applyRecord s n str).bst = bstInsert s.bst n true := by
            rw [applyRecord, hg]
            simp
          rw [happ]
          by_cases hk : k = n
          · subst hk
            exact bstGet_insert_same s.bst k true
          · rw [bstGet_insert_other s.bst n true k hk]
            exact h
      | true =>
          have happ : (applyRecord s n str).bst = s.bst := by
            rw [applyRecord, hg]
            simp
          rw [happ]
          exact h

theorem applyRecord_bst_preserves_present (s : SysState) (n : Nat) (str : String)
    (k : Nat) (h : (bstGet s.bst k).isSome = true) :
    (bstGet (applyRecord s n str).bst k).isSome = true := by
  cases hg : bstGet s.bst n with
  | none =>
      have happ : (applyRecord s n str).bst = s.bst ++ [(n, false)] := by
        rw [applyRecord, hg, bstInsert_absent s.bst n false hg]
      rw [happ]
      by_cases hk : k = n
      · subst hk
        rw [bstGet_append_single_self s.bst k false hg]
        rfl
      · rw [bstGet_append_single_other s.bst n false k hk]
        exact h
  | some flag =>
      cases flag with
      | false =>
          have happ : (applyRecord s n str).bst = bstInsert s.bst n true := by
            rw [applyRecord, hg]
            simp
          rw [happ]
          by_cases hk : k = n
          · subst hk
            rw [bstGet_insert_same s.bst k true]
            rfl
          · rw [bstGet_insert_other s.bst n true k hk]
            exact h
      | true =>
          have happ : (applyRecord s n str).bst = s.bst := by
            rw [applyRecord, hg]
            simp
          rw [happ]
          exact h

/-! ### The cooperative scheduling of workers and the reporter

`asyncio` runs one task at a time; control changes hands only at `await`
points.  In `consume_stream` the suspension points around the critical
section are: acquiring `bst_lock` (line 179) and waiting on `report_event`
(line 187); from the gate check to `bst_lock.release()` (lines 186-228) the
body has no `await`, so one record application is a single scheduler slice.
In `generate_report` the only suspension point is `await self.logfile.write`
(line 81): clearing the event, printing the line and zeroing the counters
(lines 70-78) happen in one slice before it, and clearing the buffer plus
setting the event (lines 84-86) in one slice after it.  The argument of
`write` — `'\n'.join(self.logfile_buffer)` — is computed when the call is
made, so the reporter phase carries the buffer snapshot taken at that point.

The transition system below has one step per scheduler slice, plus extra
interleaving freedom (a worker may be preempted between acquiring the lock
and checking the gate, which the real scheduler does not do); adding
interleavings only enlarges the set of reachable behaviours, so the safety
properties proved over this system hold for the real scheduling. -/

/-- Program counter of one connection worker around the critical section. -/
inductive WPC where
  | idle : WPC
  | ready : Nat × String → WPC       -- holds a framed record, before the lock
  | locked : Nat × String → WPC      -- acquired `bst_lock`, gate not yet checked
  | waiting : Nat × String → WPC     -- parked in `report_event.wait()` with the lock
deriving DecidableEq, Repr

/-- Program counter of the reporter: `writing p` is the suspension inside
`await self.logfile.write(...)`, with `p` the buffer snapshot passed to
`write`. -/
inductive RPC where
  | idle : RPC
  | writing : List String → RPC
deriving DecidableEq, Repr

structure CState where
  core : SysState
  lock : Bool       -- `bst_lock` held
  gate : Bool       -- `report_event.is_set()`
  workers : List WPC
  reporter : RPC
deriving DecidableEq, Repr

/-- Step labels; `applyRec`/`wake` carry the record that gets applied. -/
inductive CLabel where
  | recv : Nat → Nat × String → CLabel
  | acquire : Nat → CLabel
  | applyRec : Nat → Nat × String → CLabel
  | waitGate : Nat → CLabel
  | wake : Nat → Nat × String → CLabel
  | rStart : CLabel
  | rFinish : CLabel
deriving DecidableEq, Repr

/-- One scheduler slice.  Worker `i` frames a record (`recv`), acquires the
free lock (`acquire`), then either applies the record in one slice when the
gate is open (`applyRec`, lines 186-228 of the source) or parks on the event
(`waitGate`) and later applies when woken (`wake`).  The reporter clears the
gate, prints and resets in one slice ending at the `write` suspension
(`rStart`, lines 70-81), and on completion appends to the file, clears the
buffer and reopens the gate (`rFinish`, lines 81-86). -/
inductive Step : CState → CLabel → CState → Prop where
  | recv (s : CState) (i : Nat) (r : Nat × String) :
      s.workers.get? i = some .idle →
      Step s (.recv i r) { s with workers := s.workers.set i (.ready r) }
  | acquire (s : CState) (i : Nat) (r : Nat × String) :
      s.workers.get? i = some (.ready r) → s.lock = false →
      Step s (.acquire i)
        { s with lock := true, workers := s.workers.set i (.locked r) }
  | applyRec (s : CState) (i : Nat) (r : Nat × String) :
      s.workers.get? i = some (.locked r) → s.gate = true →
      Step s (.applyRec i r)
        { s with core := applyRecord s.core r.1 r.2, lock := false,
                 workers := s.workers.set i .idle }
  | waitGate (s : CState) (i : Nat) (r : Nat × String) :
      s.workers.get? i = some (.locked r) → s.gate = false →
      Step s (.waitGate i) { s with workers := s.workers.set i (.waiting r) }
  | wake (s : CState) (i : Nat) (r : Nat × String) :
      s.workers.get? i = some (.waiting r) → s.gate = true →
      Step s (.wake i r)
        { s with core := applyRecord s.core r.1 r.2, lock := false,
                 workers := s.workers.set i .idle }
  | rStart (s : CState) :
      s.reporter = .idle →
      Step s .rStart
        { s with gate := false,
                 core := { s.core with
                   report0 := 0, report1 := 0,
                   outLines := s.core.outLines ++
                     [reportLine s.core.report0 s.core.report1 s.core.report2],
                   reports := s.core.reports ++
                     [(s.core.report0, s.core.report1, s.core.report2)] },
                 reporter := .writing s.core.buffer }
  | rFinish (s : CState) (p : List String) :
      s.reporter = .writing p →
      Step s .rFinish
        { s with gate := true,
                 core := { s.core with
                   buffer := [],
                   file := s.core.file ++ String.intercalate "\n" p,
                   flushes := s.core.flushes ++ [p] },
                 reporter := .idle }

/-- Executions: a list of labelled steps. -/
inductive Trace : CState → List CLabel → CState → Prop where
  | nil (s : CState) : Trace s [] s
  | cons {s s' s'' : CState} {l : CLabel} {ls : List CLabel} :
      Step s l s' → Trace s' ls s'' → Trace s (l :: ls) s''

/-- State right after startup: `run()` has fired the initial report, which
ends with `report_event.set()`, so the gate is open; `k` idle workers. -/
def initC (k : Nat) : CState :=
  { core := initState, lock := false, gate := true,
    workers := List.replicate k .idle, reporter := .idle }

/-- The serialized event a step label performs, if any: a record for
`applyRec`/`wake`, a report for `rStart`. -/
def opOf : CLabel → Option Op
  | .applyRec _ r => some (.record r.1 r.2)
  | .wake _ r => some (.record r.1 r.2)
  | .rStart => some .report
  | _ => none

/-- The serialized events that a concurrent execution performs. -/
def opsOfLabels (ls : List CLabel) : List Op :=
  ls.filterMap opOf

/-- A label that performs a record application. -/
def isApplyLabel : CLabel → Bool
  | .applyRec _ _ => true
  | .wake _ _ => true
  | _ => false

/-- Combined invariant: while the reporter is suspended in the write, the
gate is closed, the pending snapshot is the (unchanged) buffer, and the
core equals the serialized run minus the not-yet-performed tail of the
report; at reporter-idle states the core is exactly the serialized run. -/
def COK (s : CState) (ops : List Op) : Prop :=
  match s.reporter with
  | .idle => s.core = run initState ops
  | .writing p =>
      s.gate = false ∧ p = s.core.buffer ∧
      run initState ops =
        { s.core with
            buffer := [],
            file := s.core.file ++ String.intercalate "\n" p,
            flushes := s.core.flushes ++ [p] }

theorem opsOfLabels_cons (l : CLabel) (ls : List CLabel) :
    opsOfLabels (l :: ls) = (opOf l).toList ++ opsOfLabels ls := by
  cases h : opOf l <;> simp [opsOfLabels, List.filterMap_cons, h]

theorem cok_step (s : CState) (l : CLabel) (s' : CState) (ops : List Op)
    (hst : Step s l s') (h : COK s ops) :
    COK s' (ops ++ (opOf l).toList) := by
  cases hst with
  | recv i r hw =>
      rcases hrep : s.reporter with _ | p <;>
        simp only [COK, hrep, opOf, Option.toList, List.append_nil] at h ⊢ <;>
        exact h
  | acquire i r hw hl =>
      rcases hrep : s.reporter with _ | p <;>
        simp only [COK, hrep, opOf, Option.toList, List.append_nil] at h ⊢ <;>
        exact h
  | waitGate i r hw hg =>
      rcases hrep : s.reporter with _ | p <;>
        simp only [COK, hrep, opOf, Option.toList, List.append_nil] at h ⊢ <;>
        exact h
  | applyRec i r hw hg =>
      rcases hrep : s.reporter with _ | p
      · simp only [COK, hrep, opOf, Option.toList] at h ⊢
        rw [run_append, ← h]
        rfl
      · simp only [COK, hrep] at h
        rw [h.1] at hg
        exact Bool.noConfusion hg
  | wake i r hw hg =>
      rcases hrep : s.reporter with _ | p
      · simp only [COK, hrep, opOf, Option.toList] at h ⊢
        rw [run_append, ← h]
        rfl
      · simp only [COK, hrep] at h
        rw [h.1] at hg
        exact Bool.noConfusion hg
  | rStart hrep =>
      simp only [COK, hrep, opOf, Option.toList] at h ⊢
      refine ⟨?_, ?_, ?_⟩ <;> first
        | trivial
        | (rw [run_append, ← h]; rfl)
  | rFinish p hrep =>
      simp only [COK, hrep, opOf, Option.toList, List.append_nil] at h ⊢
      exact h.2.2.symm

theorem cok_trace {s : CState} {ls : List CLabel} {s' : CState}
    (ht : Trace s ls s') : ∀ ops, COK s ops → COK s' (ops ++ opsOfLabels ls) := by
  induction ht with
  | nil s =>
      intro ops h
      simpa [opsOfLabels] using h
  | cons hst htr ih =>
      intro ops h
      have h1 := cok_step _ _ _ ops hst h
      have h2 := ih _ h1
      rw [opsOfLabels_cons, ← List.append_assoc]
      exact h2

theorem cok_init (k : Nat) : COK (initC k) [] := by
  simp only [COK, initC]
  rfl

theorem cok_reach {k : Nat} {ls : List CLabel} {s : CState}
    (ht : Trace (initC k) ls s) : COK s (opsOfLabels ls) := by
  have := cok_trace ht [] (cok_init k)
  simpa using this

/-! ### Admission control (`connection_handler`, lines 230-239, and
`close_connection`, lines 88-94)

`connections` maps uuid strings to handles; the handles are irrelevant to
the claims, so the table is modelled as the list of its keys.  `del` of one
key is `List.erase`.  `connections_count` is a Python integer. -/

structure ConnState where
  table : List String
  count : Int
deriving DecidableEq, Repr

/-- State after `__init__`: empty table, zero count. -/
def connInit : ConnState := { table := [], count := 0 }

/-- The admission path of `connection_handler`: at or above the cap the
socket is closed and nothing else happens; below the cap the count is
incremented and the connection registered under a fresh uuid. -/
def connection_handler (maxConn : Int) (s : ConnState) (cid : String) : ConnState :=
  if s.count ≥ maxConn then s
  else { table := s.table ++ [cid], count := s.count + 1 }

/-- `close_connection`: only when the id is present (`connections.get` not
`None`) is the entry removed and the count decremented. -/
def close_connection (s : ConnState) (cid : String) : ConnState :=
  if cid ∈ s.table then
    { table := s.table.erase cid, count := s.count - 1 }
  else s

inductive ConnEvent where
  | accept : String → ConnEvent
  | close : String → ConnEvent
deriving DecidableEq, Repr

def connStep (maxConn : Int) (s : ConnState) (e : ConnEvent) : ConnState :=
  match e with
  | .accept cid => connection_handler maxConn s cid
  | .close cid => close_connection s cid

def runConn (maxConn : Int) (es : List ConnEvent) : ConnState :=
  es.foldl (connStep maxConn) connInit

/-- The uuids offered by accept events, in order. -/
def accIds (es : List ConnEvent) : List String :=
  es.filterMap (fun e => match e with
    | .accept cid => some cid
    | .close _ => none)

/-- Connection-table invariant: count below the cap, count equals the table
size, and no duplicate ids. -/
def ConnInv (maxConn : Int) (s : ConnState) : Prop :=
  s.count ≤ maxConn ∧ s.count = (s.table.length : Int) ∧ s.table.Nodup

theorem connInv_steps (maxConn : Int) :
    ∀ (es : List ConnEvent) (s : ConnState), ConnInv maxConn s →
      (∀ cid ∈ accIds es, cid ∉ s.table) → (accIds es).Nodup →
      ConnInv maxConn (es.foldl (connStep maxConn) s) := by
  intro es
  induction es with
  | nil =>
      intro s h _ _
      exact h
  | cons e es ih =>
      intro s h hfresh hnd
      rw [List.foldl_cons]
      obtain ⟨hcap, hlen, hnodup⟩ := h
      cases e with
      | accept cid =>
          have hacc : accIds (ConnEvent.accept cid :: es) = cid :: accIds es := by
            simp [accIds, List.filterMap_cons]
          rw [hacc] at hfresh hnd
          rw [List.nodup_cons] at hnd
          show ConnInv maxConn
            (es.foldl (connStep maxConn) (connection_handler maxConn s cid))
          by_cases hat : s.count ≥ maxConn
          · rw [show connection_handler maxConn s cid = s by
              unfold connection_handler; rw [if_pos hat]]
            exact ih s ⟨hcap, hlen, hnodup⟩
              (fun x hx => hfresh x (List.mem_cons_of_mem cid hx)) hnd.2
          · have hstep : connection_handler maxConn s cid =
                { table := s.table ++ [cid], count := s.count + 1 } := by
              unfold connection_handler
              rw [if_neg hat]
            rw [hstep]
            refine ih _ ⟨?_, ?_, ?_⟩ ?_ hnd.2
            · show s.count + 1 ≤ maxConn
              omega
            · show s.count + 1 = ((s.table ++ [cid]).length : Int)
              simp only [List.length_append, List.length_cons, List.length_nil]
              push_cast
              omega
            · show (s.table ++ [cid]).Nodup
              rw [List.nodup_append]
              exact ⟨hnodup, List.nodup_singleton cid,
                fun x hx hx2 => (List.mem_singleton.mp hx2 ▸
                  hfresh cid (List.mem_cons_self cid _)) hx⟩
            · intro x hx
              simp only [List.mem_append, List.mem_singleton, not_or]
              refine ⟨hfresh x (List.mem_cons_of_mem cid hx), ?_⟩
              intro hxc
              exact hnd.1 (hxc ▸ hx)
      | close cid =>
          have hacc : accIds (ConnEvent.close cid :: es) = accIds es := by
            simp [accIds, List.filterMap_cons]
          rw [hacc] at hfresh hnd
          show ConnInv maxConn (es.foldl (connStep maxConn) (close_connection s cid))
          by_cases hmem : cid ∈ s.table
          · have hstep : close_connection s cid =
                { table := s.table.erase cid, count := s.count - 1 } := by
              unfold close_connection
              rw [if_pos hmem]
            rw [hstep]
            have hlpos : 1 ≤ s.table.length := List.length_pos.mpr
              (fun hnil => by rw [hnil] at hmem; exact List.not_mem_nil cid hmem)
            refine ih _ ⟨?_, ?_, hnodup.erase cid⟩ ?_ hnd
            · show s.count - 1 ≤ maxConn
              omega
            · show s.count - 1 = ((s.table.erase cid).length : Int)
              rw [List.length_erase_of_mem hmem]
              rw [hlen]
              push_cast [hlpos]
              omega
            · intro x hx
              exact fun hmem2 => hfresh x hx (List.mem_of_mem_erase hmem2)
          · rw [show close_connection s cid = s by
              unfold close_connection; rw [if_neg hmem]]
            exact ih s ⟨hcap, hlen, hnodup⟩ hfresh hnd

theorem connInv_run (maxConn : Int) (es : List ConnEvent) (hm : 0 ≤ maxConn)
    (hnd : (accIds es).Nodup) : ConnInv maxConn (runConn maxConn es) := by
  refine connInv_steps maxConn es connInit ⟨hm, rfl, List.nodup_nil⟩ ?_ hnd
  intro cid _
  exact List.not_mem_nil cid

/-! ### Claim theorems -/

/-- C1: for every delivered integer record (a stride the framer classified
as a record), the worker's update of the index, counters and log buffer
follows exactly three cases: key absent — insert with flag `false`,
increment `newUniqueThisPeriod` (`current_report[0]`) and `cumulativeUnique`
(`current_report[2]`), and append the 9-digit zero-padded text to the log
buffer; key present with flag `false` — set the flag `true`, decrement
`cumulativeUnique`, increment `duplicatesThisPeriod` (`current_report[1]`);
key present with flag `true` — increment `duplicatesThisPeriod` only. -/
theorem c1_worker_update_cases (s : SysState) (ba : List Nat) (n : Nat)
    (str : String) (hlen : ba.length = 10)
    (hrec : classifyStride ba = .record n str) :
    (bstGet s.bst n = none →
      applyRecord s n str =
        { s with bst := bstInsert s.bst n false,
                 report0 := s.report0 + 1,
                 report2 := s.report2 + 1,
                 buffer := s.buffer ++ [zeroPad9 n] }) ∧
    (bstGet s.bst n = some false →
      applyRecord s n str =
        { s with bst := bstInsert s.bst n true,
                 report2 := s.report2 - 1,
                 report1 := s.report1 + 1 }) ∧
    (bstGet s.bst n = some true →
      applyRecord s n str = { s with report1 := s.report1 + 1 }) := by
  obtain ⟨-, -, hzp, -⟩ := classify_record_props ba n str hlen hrec
  refine ⟨?_, ?_, ?_⟩
  · intro hg
    rw [hzp, applyRecord, hg]
  · intro hg
    rw [applyRecord, hg]
    simp
  · intro hg
    rw [applyRecord, hg]
    simp

/-- Witness for C1 at the concrete frame `"000000123\n"` on the initial
state. -/
theorem c1_witness :
    applyRecord initState 123 "000000123" =
      { initState with bst := bstInsert initState.bst 123 false,
                       report0 := initState.report0 + 1,
                       report2 := initState.report2 + 1,
                       buffer := initState.buffer ++ [zeroPad9 123] } :=
  (c1_worker_update_cases initState [48, 48, 48, 48, 48, 48, 49, 50, 51, 10]
    123 "000000123" (by decide) (by decide)).1 (by decide)

/-- C2: at every quiescent instant of a serialized run (any state between
events), `cumulativeUnique` (`current_report[2]`) equals the number of keys
in the index whose flag is `false`; this holds from the empty initial index
with counter `0` through every record application and report. -/
theorem c2_cumulative_unique_invariant (ops : List Op) :
    (run initState ops).report2 = (falseCount (run initState ops).bst : Int) :=
  (run_good ops).2.2.2.2.1

/-- C3: for any partition of a byte stream into non-empty reads, the framer
delivers the same records as a single walk of the concatenation (frames
split across reads are reassembled via the carry); a tail shorter than 10
bytes is saved as the carry; a full stride with byte 9 ≠ LF yields the
close-invalid verdict; a stride with a non-digit among bytes 0..8 yields
terminate exactly when it is byte-for-byte `terminate\n` and close-invalid
otherwise; a stride of nine digits plus LF delivers the parsed integer; and
`000000000\n` and `999999999\n` are valid records. -/
theorem c3_framer_correct :
    (∀ reads : List (List Nat), (∀ r ∈ reads, r ≠ []) →
      consumeReads [] reads = walkStrides reads.flatten) ∧
    (∀ buf : List Nat, buf.length < 10 → walkStrides buf = ([], .more buf)) ∧
    (∀ ba : List Nat, ba.length = 10 →
      (ba.getD 9 0 ≠ 10 → classifyStride ba = .close) ∧
      ((∃ i < 9, ¬ isDigitByte (ba.getD i 0)) →
        (ba = terminateBytes → classifyStride ba = .term) ∧
        (ba ≠ terminateBytes → classifyStride ba = .close)) ∧
      (ba.getD 9 0 = 10 → (∀ i < 9, isDigitByte (ba.getD i 0)) →
        classifyStride ba = .record (parseDigits (ba.take 9)) (digitsStr (ba.take 9)))) ∧
    classifyStride [48, 48, 48, 48, 48, 48, 48, 48, 48, 10] =
      .record 0 "000000000" ∧
    classifyStride [57, 57, 57, 57, 57, 57, 57, 57, 57, 10] =
      .record 999999999 "999999999" := by
  refine ⟨?_, ?_, ?_, by decide, by decide⟩
  · intro reads h
    have := consumeReads_join reads [] (by simp) h
    simpa using this
  · intro buf h
    exact walkStrides_short buf h
  · intro ba _
    refine ⟨?_, ?_, ?_⟩
    · intro h10
      unfold classifyStride
      rw [if_pos h10]
    · intro hnd
      constructor
      · intro hba
        subst hba
        decide
      · intro hne
        by_cases h10 : ba.getD 9 0 = 10
        · unfold classifyStride
          rw [if_neg (fun hh => hh h10)]
          rw [if_neg, if_neg hne]
          obtain ⟨i, hi, hdi⟩ := hnd
          rw [List.all_eq_true]
          intro hall
          exact hdi (by simpa using hall i (List.mem_range.mpr hi))
        · unfold classifyStride
          rw [if_pos h10]
    · intro h10 hdig
      unfold classifyStride
      rw [if_neg (fun hh => hh h10), if_pos]
      rw [List.all_eq_true]
      intro i hi
      simpa using hdig i (List.mem_range.mp hi)

/-- Witness for C3: the frame `"000000123\n"` split into a 3-byte and a
7-byte read is reassembled. -/
theorem c3_witness :
    consumeReads [] [[48, 48, 48], [48, 48, 48, 49, 50, 51, 10]] =
      walkStrides ([[48, 48, 48], [48, 48, 48, 49, 50, 51, 10]] :
        List (List Nat)).flatten :=
  c3_framer_correct.1 [[48, 48, 48], [48, 48, 48, 49, 50, 51, 10]] (by decide)

theorem numsOf_replicate (N : Nat) (n : Nat) (str : String) :
    numsOf (List.replicate N (Op.record n str)) = List.replicate N n := by
  induction N with
  | zero => rfl
  | succ k ih =>
      rw [List.replicate_succ, List.replicate_succ]
      simp only [numsOf, List.filterMap_cons] at ih ⊢
      rw [ih]

theorem toFinset_card_replicate (N : Nat) (n : Nat) (h : 0 < N) :
    (List.replicate N n).toFinset.card = 1 := by
  cases N with
  | zero => omega
  | succ k =>
      rw [List.toFinset_replicate_of_ne_zero (by omega)]
      rfl

/-- C4: for any serialized event sequence, `newUniqueThisPeriod` summed over
all emitted reports plus the running counter equals the number of distinct
record integers, and `duplicatesThisPeriod` summed likewise equals the
number of records minus that count; in particular the same integer sent `N`
times (N > 0) contributes 1 to the former and `N - 1` to the latter. -/
theorem c4_period_sums :
    (∀ ops : List Op,
      ((run initState ops).reports.map (fun r => r.1)).sum +
          (run initState ops).report0 = (numsOf ops).toFinset.card ∧
      ((run initState ops).reports.map (fun r => r.2.1)).sum +
          (run initState ops).report1 =
        (numsOf ops).length - (numsOf ops).toFinset.card) ∧
    (∀ (n : Nat) (str : String) (N : Nat), 0 < N →
      ((run initState (List.replicate N (Op.record n str))).reports.map
          (fun r => r.1)).sum +
        (run initState (List.replicate N (Op.record n str))).report0 = 1 ∧
      ((run initState (List.replicate N (Op.record n str))).reports.map
          (fun r => r.2.1)).sum +
        (run initState (List.replicate N (Op.record n str))).report1 = N - 1) := by
  have main : ∀ ops : List Op,
      ((run initState ops).reports.map (fun r => r.1)).sum +
          (run initState ops).report0 = (numsOf ops).toFinset.card ∧
      ((run initState ops).reports.map (fun r => r.2.1)).sum +
          (run initState ops).report1 =
        (numsOf ops).length - (numsOf ops).toFinset.card := by
    intro ops
    have h := run_good ops
    have h6 := h.2.2.2.2.2.1
    have h7 := h.2.2.2.2.2.2.1
    rw [← numsOf_eq, firstOccs_length_eq_card] at h6 h7
    have hlen : (numsOf ops).length = (recsOf ops).length := by
      rw [numsOf_eq, List.length_map]
    exact ⟨h6, by omega⟩
  refine ⟨main, ?_⟩
  intro n str N hN
  have h := main (List.replicate N (Op.record n str))
  rw [numsOf_replicate, toFinset_card_replicate N n hN,
    List.length_replicate] at h
  exact h

/-- Witness for C4: three copies of the same record give one new unique and
two duplicates in total. -/
theorem c4_witness :
    ((run initState (List.replicate 3 (Op.record 7 "000000007"))).reports.map
        (fun r => r.1)).sum +
      (run initState (List.replicate 3 (Op.record 7 "000000007"))).report0 = 1 ∧
    ((run initState (List.replicate 3 (Op.record 7 "000000007"))).reports.map
        (fun r => r.2.1)).sum +
      (run initState (List.replicate 3 (Op.record 7 "000000007"))).report1 = 3 - 1 :=
  c4_period_sums.2 7 "000000007" 3 (by decide)

/-- The lines of a file: split its characters at every LF. -/
def splitLF : List Char → List (List Char)
  | [] => [[]]
  | c :: cs =>
      match splitLF cs with
      | [] => [[c]]
      | l :: ls => if c = '\n' then [] :: l :: ls else (c :: l) :: ls

/-- C5 counterexample: ingest 1, report, ingest 2, report.  The two flushes
are concatenated without a separator (`'\n'.join` leaves no trailing LF), so
the log file is the single line `000000001000000002` although two distinct
integers were ingested — not "exactly one line per distinct integer". -/
theorem c5_counterexample :
    (run initState [Op.record 1 "000000001", Op.report,
        Op.record 2 "000000002", Op.report]).file = "000000001000000002" ∧
    (splitLF (run initState [Op.record 1 "000000001", Op.report,
        Op.record 2 "000000002", Op.report]).file.data).length = 1 ∧
    (numsOf [Op.record 1 "000000001", Op.report,
        Op.record 2 "000000002", Op.report]).toFinset.card = 2 ∧
    "000000001" = zeroPad9 1 ∧ "000000002" = zeroPad9 2 := by
  refine ⟨?_, ?_, ?_, ?_, ?_⟩ <;> decide

/-- C5 (amended): for every serialized run whose record texts are the
framed 9-digit forms, the flushed log entries followed by the pending buffer
are exactly one entry per distinct integer, in first-occurrence order, each
the 9-digit zero-padded text (after a trailing report the buffer is empty,
so the flushed entries alone carry them all); the log file is the
concatenation of each flush's entries joined by LF, with no separator
between consecutive flushes. -/
theorem c5_log_entries (ops : List Op)
    (hframed : ∀ p ∈ recsOf ops, p.2 = zeroPad9 p.1) :
    ((run initState ops).flushes.flatten ++ (run initState ops).buffer =
      (firstOccs (numsOf ops)).map zeroPad9) ∧
    ((run initState ops).file =
      ((run initState ops).flushes.map (String.intercalate "\n")).foldl
        (fun a b => a ++ b) "") ∧
    (∀ ops' : List Op, ops = ops' ++ [Op.report] →
      (run initState ops).buffer = []) := by
  have h := run_good ops
  refine ⟨?_, h.2.2.2.2.2.2.2.2, ?_⟩
  · rw [h.2.2.2.2.2.2.2.1]
    rw [List.map_congr_left (fun p hp => hframed p (mem_firstRecs _ p hp))]
    have hm : (firstRecs (recsOf ops)).map (fun p => zeroPad9 p.1) =
        ((firstRecs (recsOf ops)).map Prod.fst).map zeroPad9 := by
      rw [List.map_map]
      rfl
    rw [hm, keys_firstRecs_eq, ← numsOf_eq]
  · intro ops' hops
    subst hops
    rw [run_append]
    rfl

/-- Witness for the amended C5 at the counterexample trace. -/
theorem c5_witness :
    (run initState [Op.record 1 "000000001", Op.report,
        Op.record 2 "000000002", Op.report]).flushes.flatten ++
      (run initState [Op.record 1 "000000001", Op.report,
        Op.record 2 "000000002", Op.report]).buffer =
    (firstOccs (numsOf [Op.record 1 "000000001", Op.report,
        Op.record 2 "000000002", Op.report])).map zeroPad9 :=
  (c5_log_entries [Op.record 1 "000000001", Op.report,
      Op.record 2 "000000002", Op.report] (by decide)).1

/-- C6: a worker applies a record only when the report gate is open; while
the reporter is suspended mid-report the gate is closed, so no record
application step can occur during a report; and at every reporter-idle
state the shared state equals the serialized run of the events performed so
far — each emitted report therefore reflects exactly the record
applications that completed before it started, and none that began after it
finished. -/
theorem c6_no_overlap :
    (∀ (k : Nat) (ls : List CLabel) (s : CState), Trace (initC k) ls s →
      ∀ p, s.reporter = .writing p →
        s.gate = false ∧ ∀ l s', Step s l s' → isApplyLabel l = false) ∧
    (∀ (k : Nat) (ls : List CLabel) (s : CState), Trace (initC k) ls s →
      s.reporter = .idle → s.core = run initState (opsOfLabels ls)) := by
  constructor
  · intro k ls s ht p hrep
    have hcok := cok_reach ht
    simp only [COK, hrep] at hcok
    refine ⟨hcok.1, ?_⟩
    intro l s' hst
    cases hst with
    | recv i r hw => rfl
    | acquire i r hw hl => rfl
    | applyRec i r hw hg =>
        rw [hcok.1] at hg
        exact Bool.noConfusion hg
    | waitGate i r hw hg => rfl
    | wake i r hw hg =>
        rw [hcok.1] at hg
        exact Bool.noConfusion hg
    | rStart hidle => rfl
    | rFinish q hwr => rfl
  · intro k ls s ht hrep
    have hcok := cok_reach ht
    simp only [COK, hrep] at hcok
    exact hcok

/-- Witness for C6: after the two-slice report fired from the startup state,
the shared state is the serialized `doReport`; and the one-slice-old state
(mid-report) has its gate closed. -/
theorem c6_witness :
    (({ core :=
          { bst := [], report0 := 0, report1 := 0, report2 := 0,
            buffer := [], file := "", outLines := [reportLine 0 0 0],
            reports := [(0, 0, 0)], flushes := [] },
        lock := false, gate := false, workers := [WPC.idle],
        reporter := RPC.writing [] } : CState).gate = false) ∧
    (initC 1).core = run initState (opsOfLabels []) :=
  ⟨(c6_no_overlap.1 1 [CLabel.rStart] _
      (Trace.cons (Step.rStart (initC 1) rfl) (Trace.nil _)) [] rfl).1,
   c6_no_overlap.2 1 [] (initC 1) (Trace.nil _) rfl⟩

/-- C7: the index only grows and flags only rise: over any serialized run a
key is present iff its integer was ingested, its flag is `false` iff it was
seen exactly once and `true` iff at least twice; a record application never
turns a `true` flag back to `false` and never removes a present key; a
report leaves the index untouched. -/
theorem c7_index_monotone :
    (∀ ops : List Op,
      ((run initState ops).bst.map Prod.fst).Nodup ∧
      (∀ m, (bstGet (run initState ops).bst m).isSome = true ↔
        m ∈ numsOf ops) ∧
      (∀ m, bstGet (run initState ops).bst m = some false ↔
        (numsOf ops).count m = 1) ∧
      (∀ m, bstGet (run initState ops).bst m = some true ↔
        2 ≤ (numsOf ops).count m)) ∧
    (∀ (s : SysState) (n : Nat) (str : String) (k : Nat),
      (bstGet s.bst k = some true →
        bstGet (applyRecord s n str).bst k = some true) ∧
      ((bstGet s.bst k).isSome = true →
        (bstGet (applyRecord s n str).bst k).isSome = true)) ∧
    (∀ (s : SysState) (k : Nat), bstGet (doReport s).bst k = bstGet s.bst k) := by
  refine ⟨?_, ?_, ?_⟩
  · intro ops
    have h := run_good ops
    rw [numsOf_eq]
    exact ⟨h.1, h.2.1, h.2.2.1, h.2.2.2.1⟩
  · intro s n str k
    exact ⟨applyRecord_bst_preserves_true s n str k,
      applyRecord_bst_preserves_present s n str k⟩
  · intro s k
    rfl

/-- Witness for C7: a key already marked duplicated stays `true` when its
number arrives again. -/
theorem c7_witness :
    bstGet (applyRecord { initState with bst := [(5, true)] } 5 "000000005").bst
      5 = some true :=
  (c7_index_monotone.2.1 { initState with bst := [(5, true)] } 5 "000000005"
    5).1 (by decide)

/-- C8: every report fire appends exactly one stdout line whose text is
`Received <U> unique numbers, <D> duplicates. Unique total: <T>` with the
counter values at emission, then zeroes `newUniqueThisPeriod` and
`duplicatesThisPeriod`, empties the log buffer (appending its LF-joined
contents to the file), and leaves `cumulativeUnique` and the index
unchanged. -/
theorem c8_report_frame (s : SysState) :
    (doReport s).outLines = s.outLines ++
      [reportLine s.report0 s.report1 s.report2] ∧
    (doReport s).reports = s.reports ++ [(s.report0, s.report1, s.report2)] ∧
    (doReport s).report0 = 0 ∧
    (doReport s).report1 = 0 ∧
    (doReport s).buffer = [] ∧
    (doReport s).report2 = s.report2 ∧
    (doReport s).bst = s.bst ∧
    (doReport s).file = s.file ++ String.intercalate "\n" s.buffer ∧
    (doReport s).flushes = s.flushes ++ [s.buffer] ∧
    reportLine 2 1 2 = "Received 2 unique numbers, 1 duplicates. Unique total: 2" :=
  ⟨rfl, rfl, rfl, rfl, rfl, rfl, rfl, rfl, rfl, by decide⟩

/-- C9: a connection arriving at the cap is turned away with no state
change, and — the accepted uuids being fresh — the live-connection count
and table size never exceed the cap. -/
theorem c9_admission_cap :
    (∀ (maxConn : Int) (s : ConnState) (cid : String), maxConn ≤ s.count →
      connection_handler maxConn s cid = s) ∧
    (∀ (maxConn : Int) (es : List ConnEvent), 0 ≤ maxConn →
      (accIds es).Nodup →
      (runConn maxConn es).count ≤ maxConn ∧
      ((runConn maxConn es).table.length : Int) ≤ maxConn) := by
  constructor
  · intro m s cid h
    unfold connection_handler
    rw [if_pos (by omega)]
  · intro m es hm hnd
    obtain ⟨h1, h2, h3⟩ := connInv_run m es hm hnd
    exact ⟨h1, by rw [← h2]; exact h1⟩

/-- Witness for C9: with cap 1, a second connection is rejected without
touching the state, and the count stays within the cap. -/
theorem c9_witness :
    connection_handler 1 { table := ["a"], count := 1 } "b" =
      { table := ["a"], count := 1 } ∧
    (runConn 1 [ConnEvent.accept "a", ConnEvent.accept "b"]).count ≤ 1 :=
  ⟨c9_admission_cap.1 1 { table := ["a"], count := 1 } "b" (by decide),
   (c9_admission_cap.2 1 [ConnEvent.accept "a", ConnEvent.accept "b"]
     (by decide) (by decide)).1⟩

/-- C10: once a stride passes validation (byte 9 is LF, bytes 0..8 ASCII
digits), decoding and parsing cannot fail: the parsed value is in
`[0, 999999999]` and the decoded text is the 9-character digit string —
the unguarded decode/int path is safe under that precondition. -/
theorem c10_validated_parse (ba : List Nat) (n : Nat) (str : String)
    (hlen : ba.length = 10) (hrec : classifyStride ba = .record n str) :
    n ≤ 999999999 ∧ str = zeroPad9 n ∧ str.length = 9 ∧
      ∀ c ∈ str.data, c.isDigit = true := by
  obtain ⟨hn, hs, hzp, hlt⟩ := classify_record_props ba n str hlen hrec
  obtain ⟨-, hdig, -, -⟩ := (classifyStride_record_iff ba n str).mp hrec
  have hd9 := all_digits_take ba hdig (by omega)
  have htl : (ba.take 9).length = 9 := by
    rw [List.length_take]
    omega
  have hprops := digitsStr_props (ba.take 9) htl hd9
  refine ⟨by omega, hzp, ?_, ?_⟩
  · rw [hs]
    exact hprops.1
  · rw [hs]
    exact hprops.2

/-- Witness for C10 at the frame `"000000123\n"`. -/
theorem c10_witness : "000000123" = zeroPad9 123 :=
  (c10_validated_parse [48, 48, 48, 48, 48, 48, 49, 50, 51, 10] 123
    "000000123" (by decide) (by decide)).2.1
